import Mathlib

/-!
Verification development for the async-http-codec repository.

The development shallowly embeds the HTTP/1.x head codec:

* the terminator scanner of src/request/head/parse.rs
  (TerminatorOverlap: process, remaining, done);
* the suspendable decoder loop of src/head/decode.rs
  (RequestHeadDecode::poll with its buffer, completion counter and
  usize::MAX terminal sentinel);
* the head parsing and serialization stages.  The parsing primitive
  (the httparse crate) and the response encoder/decoder files
  (head/response/decode.rs, encode.rs, status_line.rs) are not part of
  src/, so those stages are modelled from the specification, as noted
  on each definition.

Bytes are natural numbers; byte strings are lists of naturals.
-/

instance {α β : Type} [DecidableEq α] [DecidableEq β] : DecidableEq (Except α β) := fun a b =>
  match a, b with
  | .error x, .error y =>
    match decEq x y with
    | isTrue h => isTrue (by rw [h])
    | isFalse h => isFalse (by intro hc; cases hc; exact h rfl)
  | .error _, .ok _ => isFalse (by intro hc; cases hc)
  | .ok _, .error _ => isFalse (by intro hc; cases hc)
  | .ok x, .ok y =>
    match decEq x y with
    | isTrue h => isTrue (by rw [h])
    | isFalse h => isFalse (by intro hc; cases hc; exact h rfl)

namespace AsyncHttpCodec

abbrev Byte := Nat

/-- ASCII bytes of a string literal, used to write wire input concretely. -/
def asciiBytes (s : String) : List Byte := s.toList.map Char.toNat

/-- The head terminator constant b"\x0d\n\x0d\n" (CR LF CR LF), named END in
both source files. -/
def END : List Byte := [13, 10, 13, 10]

/-- The CR LF line ending. -/
def CRLF : List Byte := [13, 10]

/-! ### Terminator scanner (src/request/head/parse.rs, TerminatorOverlap) -/

/-- Embedding of TerminatorOverlap::process.  The state is the overlap
counter; term is the terminator field (instantiated with END by
RequestHeadParse::new).  The overlap = 0 arm mirrors the Rust loop
`for i in 0..data.len() { if data[i..] == terminator[0..len-i] { overlap = len-i } }`
in which a later (shorter) match overwrites an earlier one; the other arm
mirrors `data[0..len-x] == terminator[x..]` giving all-or-nothing. -/
def termProcess (term : List Byte) (overlap : Nat) (data : List Byte) : Nat :=
  match overlap with
  | 0 =>
    (List.range data.length).foldl
      (fun acc i =>
        if data.drop i = term.take (term.length - i) then term.length - i else acc)
      0
  | x =>
    if data.take (term.length - x) = term.drop x then term.length else 0

/-- Embedding of TerminatorOverlap::remaining. -/
def termRemaining (term : List Byte) (overlap : Nat) : Nat := term.length - overlap

/-- Embedding of TerminatorOverlap::done. -/
def termDone (term : List Byte) (overlap : Nat) : Bool := overlap = term.length

/-- Written from the specification's words, for comparison with the code:
the match state claimed by the spec, namely the length of the longest
suffix of the bytes processed so far that is a prefix of the terminator. -/
def specOverlap (term : List Byte) (bytes : List Byte) : Nat :=
  (List.range (term.length + 1)).foldl
    (fun acc k => if (term.take k).isSuffixOf bytes then k else acc) 0

/-! ### Suspendable decoder (src/head/decode.rs, RequestHeadDecode::poll)

The decoder state is the accumulated buffer plus the completion counter.
Each successful transport read hands the loop body a chunk of at most
4 - completion bytes (poll_read is given the slice &chunk[completion..4]).
The loop body appends the chunk, compares it with
END[completion..completion+n] and either extends completion or resets it
to 0.  usize::MAX is the terminal sentinel checked by assert_ne! on
entry. -/

/-- Decoder state: accumulated buffer and the completion match counter. -/
structure DecodeState where
  buffer : List Byte
  completion : Nat
deriving DecidableEq

/-- The usize::MAX sentinel stored in completion once a terminal state is
reached. -/
def USIZE_MAX : Nat := 2 ^ 64 - 1

/-- One successful read of chunk inside the poll loop: append to the buffer,
then compare the chunk with END[completion..completion+n] (extend on match,
reset to 0 otherwise), exactly as the loop body does. -/
def nextState (st : DecodeState) (chunk : List Byte) : DecodeState :=
  if chunk = (END.drop st.completion).take chunk.length then
    ⟨st.buffer ++ chunk, st.completion + chunk.length⟩
  else
    ⟨st.buffer ++ chunk, 0⟩

/-- Result of driving the poll loop over a list of delivered chunks. -/
inductive RunRes where
  | running (st : DecodeState)
  | tooLong (st : DecodeState)
  | done (buf : List Byte)
deriving DecidableEq

/-- The poll loop driven by a list of chunks delivered by successful reads.
Each iteration first performs the capacity check
`buffer.len() + chunk.len() > buffer.capacity()` (chunk.len() is the
requested window 4 - completion), then consumes one chunk; completion = 4
returns the parse stage's input buffer. -/
def runChunks (cap : Nat) (st : DecodeState) : List (List Byte) → RunRes
  | [] => .running st
  | chunk :: rest =>
    if cap < st.buffer.length + (4 - st.completion) then .tooLong st
    else
      let st' := nextState st chunk
      if st'.completion = 4 then .done st'.buffer
      else runChunks cap st' rest

/-- A chunk list is admissible when every chunk fits in the window the
decoder hands to poll_read (at most 4 - completion bytes), which the
AsyncRead contract guarantees. -/
def admissibleB (st : DecodeState) : List (List Byte) → Bool
  | [] => true
  | chunk :: rest =>
    decide (chunk.length ≤ 4 - st.completion) && admissibleB (nextState st chunk) rest

/-- The poll loop against a transport with all input available (the
futures-lite Cursor used by the repository's tests): every read fills the
requested window with the next bytes of the input, when available. -/
def cursorRun (cap : Nat) : Nat → DecodeState → List Byte → RunRes
  | 0, st, _ => .running st
  | fuel + 1, st, input =>
    if cap < st.buffer.length + (4 - st.completion) then .tooLong st
    else
      let st' := nextState st (input.take (4 - st.completion))
      if st'.completion = 4 then .done st'.buffer
      else cursorRun cap fuel st' (input.drop (4 - st.completion))

/-- Decode a fully available input, as in decoding the whole head delivered
in one piece. -/
def decodeFull (cap : Nat) (input : List Byte) : RunRes :=
  cursorRun cap (input.length + 1) ⟨[], 0⟩ input

/-- A transport response to one poll_read call. -/
inductive ReadResp where
  | pending
  | ioErr
  | data (chunk : List Byte)

/-- Outcome of one poll invocation. -/
inductive PollOut where
  | pending
  | ioErr
  | tooLong
  | panicked
  | headReady (buf : List Byte)
deriving DecidableEq

/-- The body of RequestHeadDecode::poll after the entry assertion: loop
reading from the transport (f gives the response to the idx-th read).
Returns none when the given fuel does not suffice for the loop to return,
some (outcome, post-state) otherwise.  The success and transport-error
paths store usize::MAX in completion; the head-too-long path returns with
the state unchanged. -/
def pollLoop (cap : Nat) (f : Nat → ReadResp) : Nat → Nat → DecodeState →
    Option (PollOut × DecodeState)
  | 0, _, _ => none
  | fuel + 1, idx, st =>
    if cap < st.buffer.length + (4 - st.completion) then some (.tooLong, st)
    else
      match f idx with
      | .pending => some (.pending, st)
      | .ioErr => some (.ioErr, ⟨st.buffer, USIZE_MAX⟩)
      | .data chunk =>
        let st' := nextState st chunk
        if st'.completion = 4 then some (.headReady st'.buffer, ⟨st'.buffer, USIZE_MAX⟩)
        else pollLoop cap f fuel (idx + 1) st'

/-- RequestHeadDecode::poll including the entry assertion
assert_ne!(self.completion, usize::MAX). -/
def pollAsync (cap : Nat) (f : Nat → ReadResp) (fuel idx : Nat) (st : DecodeState) :
    Option (PollOut × DecodeState) :=
  if st.completion = USIZE_MAX then some (.panicked, st) else pollLoop cap f fuel idx st

/-- The poll loop never returns, whatever fuel it is given: a single poll
invocation runs forever. -/
def NeverReturns (cap : Nat) (f : Nat → ReadResp) (st : DecodeState) : Prop :=
  ∀ fuel idx, pollLoop cap f fuel idx st = none

/-- A transport that always reports a successful read of zero bytes
(end of stream). -/
def fEmpty : Nat → ReadResp := fun _ => .data []

/-- A transport that is never ready. -/
def fPend : Nat → ReadResp := fun _ => .pending

/-! ### Wire-syntax primitives

Modelled from the spec: request_head_parse (src/head/decode.rs) and
RequestHeadParse::try_take_head (src/request/head/parse.rs) delegate the
splitting of the raw buffer into start line and header lines to the
httparse crate, whose code is not under src/.  These definitions model
that primitive from the specification's wire format: start line plus
zero or more Name/Value header lines, CR LF line endings, terminating
blank line. -/

/-- Split a byte list at its first CR LF: the line before it and the rest
after it. -/
def splitCRLF : List Byte → Option (List Byte × List Byte)
  | [] => none
  | b :: rest =>
    if b = 13 ∧ rest.head? = some 10 then some ([], rest.tail)
    else (splitCRLF rest).map (fun p => (b :: p.1, p.2))

/-- Split a start line at its first two spaces into three fields
(method / URI / version for requests; version / status / reason for
responses). -/
def split3 (line : List Byte) : Option (List Byte × List Byte × List Byte) :=
  let f1 := line.takeWhile (fun b => b != 32)
  match line.dropWhile (fun b => b != 32) with
  | 32 :: r2 =>
    let f2 := r2.takeWhile (fun b => b != 32)
    match r2.dropWhile (fun b => b != 32) with
    | 32 :: rest => some (f1, f2, rest)
    | _ => none
  | _ => none

/-- Split one header line at its colon into the name (the bytes before the
first colon) and the value (the bytes after the colon and the following
space). -/
def parseHeaderLine (line : List Byte) : Option (List Byte × List Byte) :=
  match line.dropWhile (fun b => b != 58) with
  | 58 :: 32 :: v => some (line.takeWhile (fun b => b != 58), v)
  | _ => none

/-- Parse the header section: header lines up to the blank line, which must
end the buffer (the buffer holds exactly one complete head). -/
def parseHeaderList : Nat → List Byte → Option (List (List Byte × List Byte))
  | 0, _ => none
  | fuel + 1, bytes =>
    match splitCRLF bytes with
    | none => none
    | some (line, rest) =>
      if line = [] then (if rest = [] then some [] else none)
      else
        match parseHeaderLine line with
        | none => none
        | some nv => (parseHeaderList fuel rest).map (fun hs => nv :: hs)

/-- Serialize the header section: each header as Name colon space Value
CR LF, in stored order, followed by the final CR LF (spec 4.4). -/
def serializeHeaderLines : List (List Byte × List Byte) → List Byte
  | [] => [13, 10]
  | (n, v) :: hs => n ++ 58 :: 32 :: (v ++ 13 :: 10 :: serializeHeaderLines hs)

/-! ### Field validity (HTTP field syntax, spec 4.3) -/

/-- Token bytes of HTTP field grammar: digits, letters, and the permitted
symbols. -/
def isTokenByte (b : Byte) : Bool :=
  (48 ≤ b && b ≤ 57) || (65 ≤ b && b ≤ 90) || (97 ≤ b && b ≤ 122) ||
    [33, 35, 36, 37, 38, 39, 42, 43, 45, 46, 94, 95, 96, 124, 126].contains b

/-- Free of CR and LF bytes. -/
def crlfFreeB (l : List Byte) : Bool := l.all (fun b => b != 13 && b != 10)

/-- A valid header name: nonempty token. -/
def validNameB (n : List Byte) : Bool := !n.isEmpty && n.all isTokenByte

/-- A valid header value: no CR or LF, no leading or trailing space. -/
def validValueB (v : List Byte) : Bool :=
  crlfFreeB v && !(v.head? == some 32) && !(v.getLast? == some 32)

/-- A valid header pair. -/
def validPairB (p : List Byte × List Byte) : Bool := validNameB p.1 && validValueB p.2

/-- A valid method token (Method::from_bytes accepts token bytes). -/
def validMethodB (m : List Byte) : Bool := !m.isEmpty && m.all isTokenByte

/-- A valid request target: nonempty visible ASCII. -/
def validUriB (u : List Byte) : Bool := !u.isEmpty && u.all (fun b => 33 ≤ b && b ≤ 126)

/-- Modelled from the spec: the version tokens the wire grammar admits,
HTTP/1.1 parsing to minor version 1 and HTTP/1.0 to minor version 0
(httparse's parsed_request.version); any other token fails the parse. -/
def versionOfToken (t : List Byte) : Option Nat :=
  if t = asciiBytes ("HTTP/1.1") then some 1
  else if t = asciiBytes ("HTTP/1.0") then some 0
  else none

/-! ### Request head parsing (request_head_parse, src/head/decode.rs) -/

/-- Typed request head: method, URI, HTTP minor version, ordered header
list.  The header list keeps each wire occurrence as its own entry. -/
structure RequestHead where
  method : List Byte
  uri : List Byte
  minor : Nat
  headers : List (List Byte × List Byte)
deriving DecidableEq

/-- Errors of the parse stage.  malformed covers the httparse failures
(bad grammar, bad token bytes, partial head, unknown version token);
tooManyHeaders is httparse running out of the max_headers slots it was
given; unsupportedVersion is the repository's own check
`parsed_request.version != Some(1)`. -/
inductive HeadErr where
  | malformed
  | tooManyHeaders
  | unsupportedVersion
deriving DecidableEq

/-- Embedding of request_head_parse: the buffer is split and validated by
the parsing primitive (modelled from the spec), then the repository's
code rejects any parsed version other than Some(1) with the
unsupported-version error, builds the typed head with version HTTP_11 and
appends the headers in wire order. -/
def requestHeadParse (maxHeaders : Nat) (buffer : List Byte) : Except HeadErr RequestHead :=
  match splitCRLF buffer with
  | none => .error .malformed
  | some (line1, rest) =>
    match split3 line1 with
    | none => .error .malformed
    | some (m, u, vt) =>
      match versionOfToken vt with
      | none => .error .malformed
      | some ver =>
        match parseHeaderList (rest.length + 1) rest with
        | none => .error .malformed
        | some hs =>
          if ¬ (hs.all validPairB = true ∧ validMethodB m = true ∧ validUriB u = true)
          then .error .malformed
          else if maxHeaders < hs.length then .error .tooManyHeaders
          else if ver ≠ 1 then .error .unsupportedVersion
          else .ok ⟨m, u, 1, hs⟩

/-- Modelled from the spec: the request serializer (not under src/) writes
METHOD SP URI SP VERSION CR LF, the header lines, and the final CR LF. -/
def serializeRequest (m u vt : List Byte) (hs : List (List Byte × List Byte)) : List Byte :=
  m ++ 32 :: (u ++ 32 :: (vt ++ 13 :: 10 :: serializeHeaderLines hs))

/-- Validity of a request head to be put on the wire. -/
def validReqB (maxHeaders : Nat) (m u : List Byte)
    (hs : List (List Byte × List Byte)) : Bool :=
  validMethodB m && validUriB u && hs.all validPairB && decide (hs.length ≤ maxHeaders)

/-! ### Response head codec

Modelled from the spec: the response decoder and encoder files
(head/response/decode.rs, encode.rs, status_line.rs) are not under src/
(only their test is); these definitions follow spec 4.3, 4.4 and 6:
decode a complete buffer into version, status, reason and the ordered
header list, preserving header casing and order; encode writes
VERSION SP STATUS SP REASON CR LF, the header lines, and the final
CR LF. -/

/-- Typed response head. -/
structure ResponseHead where
  version : List Byte
  status : List Byte
  reason : List Byte
  headers : List (List Byte × List Byte)
deriving DecidableEq

/-- A decimal digit byte. -/
def digitB (b : Byte) : Bool := 48 ≤ b && b ≤ 57

/-- A valid status field: exactly three digits. -/
def statDigitsB (s : List Byte) : Bool := s.length = 3 && s.all digitB

/-- A version token the head parser accepts (HTTP/1.x, spec 4.3). -/
def validVersionB (t : List Byte) : Bool :=
  decide (t = asciiBytes ("HTTP/1.1")) || decide (t = asciiBytes ("HTTP/1.0"))

/-- Modelled from the spec: serialize a response head (spec 4.4). -/
def ResponseHead.serialize (h : ResponseHead) : List Byte :=
  h.version ++ 32 :: (h.status ++ 32 :: (h.reason ++ 13 :: 10 :: serializeHeaderLines h.headers))

/-- Modelled from the spec: decode a complete response head buffer
(spec 4.3): split the start line into version, status and reason, parse
the header lines, and validate version, status, reason, header fields and
the header count. -/
def responseHeadDecode (maxHeaders : Nat) (bytes : List Byte) : Option ResponseHead :=
  match splitCRLF bytes with
  | none => none
  | some (line1, rest) =>
    match split3 line1 with
    | none => none
    | some (ver, stat, rsn) =>
      match parseHeaderList (rest.length + 1) rest with
      | none => none
      | some hs =>
        if validVersionB ver && statDigitsB stat && crlfFreeB rsn &&
            hs.all validPairB && decide (hs.length ≤ maxHeaders)
        then some ⟨ver, stat, rsn, hs⟩
        else none

/-- Validity of a response head to be put on the wire. -/
def validRespB (maxHeaders : Nat) (h : ResponseHead) : Bool :=
  validVersionB h.version && statDigitsB h.status && crlfFreeB h.reason &&
    h.headers.all validPairB && decide (h.headers.length ≤ maxHeaders)

/-! ### Concrete wire inputs -/

/-- A 24-byte valid request head ending in the terminator. -/
def H24 : List Byte := asciiBytes ("GET / HTTP/1.1\r\nA: B\r\n\r\n")

/-- An adversarial but admissible chunking of H24: every chunk is at most
the window the decoder requests, and the terminator is split so that the
CR LF prefix match at bytes 14..16 is followed by non-matching bytes. -/
def chunksC1 : List (List Byte) :=
  [asciiBytes ("GET "), asciiBytes ("/ HT"), asciiBytes ("TP/1"), asciiBytes (".1"),
   asciiBytes ("\r\n"), asciiBytes ("A:"), asciiBytes (" B\r\n"), asciiBytes ("\r\n")]

/-- The repository's own test input: a complete head followed by one extra
byte (a space). -/
def INPUT61 : List Byte :=
  asciiBytes ("GET / HTTP/1.1\r\nHost: www.example.com\r\nConnection: close\r\n\r\n ")

/-- The head part of INPUT61. -/
def HEAD60 : List Byte :=
  asciiBytes ("GET / HTTP/1.1\r\nHost: www.example.com\r\nConnection: close\r\n\r\n")

/-- The head decoded by the repository's response test. -/
def respEx : ResponseHead :=
  ⟨asciiBytes ("HTTP/1.1"), asciiBytes ("201"), asciiBytes ("Created"),
   [(asciiBytes ("connection"), asciiBytes ("close"))]⟩

/-! ## Helper lemmas about the poll loop -/

/-- The buffer grows by exactly the delivered chunk. -/
theorem nextState_buffer (st : DecodeState) (ch : List Byte) :
    (nextState st ch).buffer = st.buffer ++ ch := by
  unfold nextState; split <;> rfl

/-- A chunk that passes the window comparison fits in the window. -/
theorem matched_length_le (c : Nat) (ch : List Byte)
    (h : ch = (END.drop c).take ch.length) : ch.length ≤ 4 - c := by
  have h1 : ch.length = min ch.length (END.drop c).length := by
    conv_lhs => rw [h]
    exact List.length_take ch.length (END.drop c)
  have h2 : (END.drop c).length = 4 - c := by simp [END]
  rw [h2] at h1
  exact h1 ▸ Nat.min_le_right ch.length (4 - c)

/-- The completion counter stays at most 4. -/
theorem nextState_completion_le (st : DecodeState) (ch : List Byte)
    (h : st.completion ≤ 4) : (nextState st ch).completion ≤ 4 := by
  unfold nextState
  split
  · rename_i hm
    have := matched_length_le st.completion ch hm
    simp only
    omega
  · simp

/-- Invariant of the poll loop: the first completion bytes of the terminator
are a suffix of the buffer. -/
theorem nextState_suffix (st : DecodeState) (ch : List Byte)
    (h : END.take st.completion <:+ st.buffer) :
    END.take (nextState st ch).completion <:+ (nextState st ch).buffer := by
  unfold nextState
  split
  · rename_i hm
    obtain ⟨t, ht⟩ := h
    refine ⟨t, ?_⟩
    simp only
    rw [List.take_add, ← hm, ← List.append_assoc, ht]
  · exact ⟨st.buffer ++ ch, by simp⟩

/-- Core facts about a run of the poll loop from an invariant-satisfying
state: a still-running run has accumulated exactly the delivered bytes and
stayed within capacity, and a completed run ends with the terminator,
stayed within capacity, and consumed a prefix of the delivered bytes. -/
theorem runChunks_spec (cap : Nat) : ∀ (chunks : List (List Byte)) (st : DecodeState),
    admissibleB st chunks = true →
    END.take st.completion <:+ st.buffer →
    st.completion ≤ 3 →
    st.buffer.length ≤ cap →
    ((∀ st2, runChunks cap st chunks = .running st2 →
        st2.buffer = st.buffer ++ chunks.flatten ∧ st2.buffer.length ≤ cap) ∧
     (∀ buf, runChunks cap st chunks = .done buf →
        END <:+ buf ∧ buf.length ≤ cap ∧ ∃ l, buf = st.buffer ++ l ∧ l <+: chunks.flatten)) := by
  intro chunks
  induction chunks with
  | nil =>
    intro st _ _ _ hcap
    constructor
    · intro st2 hr
      cases hr
      simp [hcap]
    · intro buf hd
      simp [runChunks] at hd
  | cons ch rest ih =>
    intro st hadm hsuf hc3 hcap
    simp only [admissibleB, Bool.and_eq_true, decide_eq_true_eq] at hadm
    obtain ⟨hchlen, hadm'⟩ := hadm
    simp only [runChunks]
    by_cases hover : cap < st.buffer.length + (4 - st.completion)
    · rw [if_pos hover]
      constructor
      · intro st2 hr; cases hr
      · intro buf hd; cases hd
    · rw [if_neg hover]
      have hbound : st.buffer.length + (4 - st.completion) ≤ cap := by omega
      have hb' : (nextState st ch).buffer.length ≤ cap := by
        rw [nextState_buffer]
        simp only [List.length_append]
        omega
      by_cases hdone : (nextState st ch).completion = 4
      · rw [if_pos hdone]
        constructor
        · intro st2 hr; cases hr
        intro buf hd
        cases hd
        have hmatch : ch = (END.drop st.completion).take ch.length := by
          by_contra hnm
          have : (nextState st ch).completion = 0 := by simp [nextState, hnm]
          omega
        refine ⟨?_, hb', ch, nextState_buffer st ch, List.prefix_append ch rest.flatten⟩
        have hs := nextState_suffix st ch hsuf
        rw [hdone] at hs
        have : END.take 4 = END := by decide
        rwa [this] at hs
      · rw [if_neg hdone]
        have hc3' : (nextState st ch).completion ≤ 3 := by
          have := nextState_completion_le st ch (by omega)
          omega
        have := ih (nextState st ch) hadm' (nextState_suffix st ch hsuf) hc3' hb'
        constructor
        · intro st2 hr
          obtain ⟨hbuf, hle⟩ := this.1 st2 hr
          refine ⟨?_, hle⟩
          rw [hbuf, nextState_buffer]
          simp [List.append_assoc]
        · intro buf hd
          obtain ⟨hsuf2, hle, l, hbuf, hpre⟩ := this.2 buf hd
          refine ⟨hsuf2, hle, ch ++ l, ?_, ?_⟩
          · rw [hbuf, nextState_buffer]
            simp [List.append_assoc]
          · obtain ⟨t, ht⟩ := hpre
            exact ⟨t, by simp [← ht, List.append_assoc]⟩

/-- Admissibility restricts to a prefix of the chunk list. -/
theorem admissibleB_of_append (st : DecodeState) :
    ∀ (pre suf : List (List Byte)), admissibleB st (pre ++ suf) = true →
      admissibleB st pre = true := by
  intro pre
  induction pre generalizing st with
  | nil => intro suf _; rfl
  | cons ch t ih =>
    intro suf h
    simp only [List.cons_append, admissibleB, Bool.and_eq_true] at h ⊢
    exact ⟨h.1, ih (nextState st ch) suf h.2⟩

/-- After a successfully completed read the stored completion is the
usize::MAX sentinel. -/
theorem pollLoop_headReady_sentinel (cap : Nat) (f : Nat → ReadResp) :
    ∀ (fuel idx : Nat) (st : DecodeState) (buf : List Byte) (st2 : DecodeState),
      pollLoop cap f fuel idx st = some (.headReady buf, st2) →
      st2.completion = USIZE_MAX := by
  intro fuel
  induction fuel with
  | zero => intro idx st buf st2 h; simp [pollLoop] at h
  | succ n ih =>
    intro idx st buf st2 h
    simp only [pollLoop] at h
    split at h
    · simp at h
    · cases hf : f idx <;> rw [hf] at h
      · simp at h
      · simp at h
      · simp only at h
        split at h
        · simp only [Option.some.injEq, Prod.mk.injEq] at h
          rw [← h.2]
        · exact ih (idx + 1) _ buf st2 h

/-- After a transport-error return the stored completion is the usize::MAX
sentinel. -/
theorem pollLoop_ioErr_sentinel (cap : Nat) (f : Nat → ReadResp) :
    ∀ (fuel idx : Nat) (st st2 : DecodeState),
      pollLoop cap f fuel idx st = some (.ioErr, st2) →
      st2.completion = USIZE_MAX := by
  intro fuel
  induction fuel with
  | zero => intro idx st st2 h; simp [pollLoop] at h
  | succ n ih =>
    intro idx st st2 h
    simp only [pollLoop] at h
    split at h
    · simp at h
    · cases hf : f idx <;> rw [hf] at h
      · simp at h
      · simp only [Option.some.injEq, Prod.mk.injEq] at h
        rw [← h.2]
      · simp only at h
        split at h
        · simp at h
        · exact ih (idx + 1) _ st2 h

/-- With a transport whose successful reads all deliver at least one byte,
the poll loop returns once the buffer plus the remaining fuel crosses the
capacity. -/
theorem pollLoop_progress (cap : Nat) (f : Nat → ReadResp)
    (hf : ∀ i, f i = .pending ∨ f i = .ioErr ∨ ∃ ch, f i = .data ch ∧ ch ≠ []) :
    ∀ (fuel : Nat) (st : DecodeState) (idx : Nat),
      st.completion ≤ 3 → cap + 1 ≤ st.buffer.length + fuel →
      (pollLoop cap f (fuel + 1) idx st).isSome = true := by
  intro fuel
  induction fuel with
  | zero =>
    intro st idx hc3 hlen
    simp only [pollLoop]
    rw [if_pos (by omega)]
    rfl
  | succ n ih =>
    intro st idx hc3 hlen
    simp only [pollLoop]
    by_cases hover : cap < st.buffer.length + (4 - st.completion)
    · rw [if_pos hover]; rfl
    · rw [if_neg hover]
      rcases hf idx with hp | he | ⟨ch, hd, hne⟩
      · rw [hp]; rfl
      · rw [he]; rfl
      · rw [hd]
        simp only
        by_cases hdone : (nextState st ch).completion = 4
        · rw [if_pos hdone]; rfl
        · rw [if_neg hdone]
          have hc3' : (nextState st ch).completion ≤ 3 := by
            have := nextState_completion_le st ch (by omega)
            omega
          refine ih (nextState st ch) (idx + 1) hc3' ?_
          rw [nextState_buffer]
          simp only [List.length_append]
          have : 1 ≤ ch.length := by
            cases ch with
            | nil => exact absurd rfl hne
            | cons a t => simp
          omega

/-! ## Helper lemmas about the wire syntax -/

/-- Splitting at the first CR LF after a CR-free line. -/
theorem splitCRLF_append (line rest : List Byte) (h : line.all (fun b => b != 13) = true) :
    splitCRLF (line ++ 13 :: 10 :: rest) = some (line, rest) := by
  induction line with
  | nil => simp [splitCRLF]
  | cons b t ih =>
    simp only [List.all_cons, Bool.and_eq_true, bne_iff_ne, ne_eq] at h
    simp only [List.cons_append, splitCRLF]
    rw [if_neg]
    · simp [ih h.2]
    · rintro ⟨hb, -⟩; exact h.1 hb

/-- A successful CR LF split reconstructs its input. -/
theorem splitCRLF_recon : ∀ (bytes l r : List Byte), splitCRLF bytes = some (l, r) →
    bytes = l ++ 13 :: 10 :: r := by
  intro bytes
  induction bytes with
  | nil => intro l r h; simp [splitCRLF] at h
  | cons b t ih =>
    intro l r h
    simp only [splitCRLF] at h
    split at h
    · rename_i hc
      obtain ⟨hb, hh⟩ := hc
      cases t with
      | nil => simp at hh
      | cons x xs =>
        simp only [List.head?_cons, Option.some.injEq] at hh
        simp only [Option.some.injEq, Prod.mk.injEq] at h
        obtain ⟨hl, hr⟩ := h
        subst hb hh hl
        simp only [List.tail_cons] at hr
        subst hr
        rfl
    · cases hs : splitCRLF t with
      | none => rw [hs] at h; simp at h
      | some p =>
        rw [hs] at h
        simp only [Option.map_some', Option.some.injEq] at h
        obtain ⟨l', r'⟩ := p
        have := ih l' r' hs
        cases h
        simp [this]

/-- takeWhile and dropWhile across an append whose left part satisfies the
predicate and whose junction byte fails it. -/
theorem tw_append (p : Byte → Bool) (xs ys : List Byte) (b : Byte)
    (hx : xs.all p = true) (hb : p b = false) :
    (xs ++ b :: ys).takeWhile p = xs ∧ (xs ++ b :: ys).dropWhile p = b :: ys := by
  induction xs with
  | nil => simp [List.takeWhile, List.dropWhile, hb]
  | cons x t ih =>
    simp only [List.all_cons, Bool.and_eq_true] at hx
    simp only [List.cons_append, List.takeWhile_cons, List.dropWhile_cons, hx.1]
    have := ih hx.2
    simp [this.1, this.2]

/-- Token bytes are none of CR, LF, space or colon. -/
theorem token_byte_ne (b : Byte) (h : isTokenByte b = true) :
    b ≠ 13 ∧ b ≠ 10 ∧ b ≠ 32 ∧ b ≠ 58 := by
  refine ⟨?_, ?_, ?_, ?_⟩ <;> intro he <;> subst he <;> exact absurd h (by decide)

/-- A token list is CR-free and LF-free. -/
theorem token_all_crlfFree (n : List Byte) (h : n.all isTokenByte = true) :
    crlfFreeB n = true := by
  rw [List.all_eq_true] at h
  rw [crlfFreeB, List.all_eq_true]
  intro x hx
  have := token_byte_ne x (h x hx)
  simp only [Bool.and_eq_true, bne_iff_ne, ne_eq]
  exact ⟨this.1, this.2.1⟩

/-- A token list contains no space. -/
theorem token_all_ne32 (n : List Byte) (h : n.all isTokenByte = true) :
    n.all (fun b => b != 32) = true := by
  rw [List.all_eq_true] at h ⊢
  intro x hx
  have := token_byte_ne x (h x hx)
  simp only [bne_iff_ne, ne_eq]
  exact this.2.2.1

/-- A token list contains no colon. -/
theorem token_all_ne58 (n : List Byte) (h : n.all isTokenByte = true) :
    n.all (fun b => b != 58) = true := by
  rw [List.all_eq_true] at h ⊢
  intro x hx
  have := token_byte_ne x (h x hx)
  simp only [bne_iff_ne, ne_eq]
  exact this.2.2.2

/-- A CR-LF-free list contains no CR. -/
theorem crlfFree_ne13 (l : List Byte) (h : crlfFreeB l = true) :
    l.all (fun b => b != 13) = true := by
  rw [crlfFreeB, List.all_eq_true] at h
  rw [List.all_eq_true]
  intro x hx
  exact ((Bool.and_eq_true _ _).mp (h x hx)).1

/-- Parsing a serialized header line recovers name and value. -/
theorem parseHeaderLine_ser (n v : List Byte) (hn : n.all (fun b => b != 58) = true) :
    parseHeaderLine (n ++ 58 :: 32 :: v) = some (n, v) := by
  have h1 := tw_append (fun b => b != 58) n (32 :: v) 58 hn (by decide)
  simp only [parseHeaderLine, h1.2, h1.1]

/-- A successfully parsed header line reconstructs its input. -/
theorem parseHeaderLine_recon (line n v : List Byte)
    (h : parseHeaderLine line = some (n, v)) : line = n ++ 58 :: 32 :: v := by
  unfold parseHeaderLine at h
  split at h
  · rename_i v2 heq
    simp only [Option.some.injEq, Prod.mk.injEq] at h
    obtain ⟨h1, h2⟩ := h
    subst h1
    subst h2
    conv_lhs => rw [← List.takeWhile_append_dropWhile (fun b => b != 58) line]
    rw [heq]
  · simp at h

/-- Splitting a serialized start line recovers the three fields. -/
theorem split3_ser (f1 f2 rest : List Byte)
    (h1 : f1.all (fun b => b != 32) = true) (h2 : f2.all (fun b => b != 32) = true) :
    split3 (f1 ++ 32 :: (f2 ++ 32 :: rest)) = some (f1, f2, rest) := by
  have e1 := tw_append (fun b => b != 32) f1 (f2 ++ 32 :: rest) 32 h1 (by decide)
  have e2 := tw_append (fun b => b != 32) f2 rest 32 h2 (by decide)
  simp only [split3, e1.1, e1.2, e2.1, e2.2]

/-- A successful start-line split reconstructs its input. -/
theorem split3_recon (line a b c : List Byte) (h : split3 line = some (a, b, c)) :
    line = a ++ 32 :: (b ++ 32 :: c) := by
  unfold split3 at h
  split at h
  · rename_i r2 heq
    split at h
    · rename_i rest heq2
      simp only [Option.some.injEq, Prod.mk.injEq] at h
      obtain ⟨h1, h2, h3⟩ := h
      subst h1
      subst h2
      subst h3
      conv_lhs => rw [← List.takeWhile_append_dropWhile (fun b => b != 32) line]
      rw [heq]
      congr 1
      congr 1
      conv_lhs => rw [← List.takeWhile_append_dropWhile (fun b => b != 32) r2]
      rw [heq2]
    · simp at h
  · simp at h

/-- The serialized header section is at least as long as the header count. -/
theorem shl_length_ge (hs : List (List Byte × List Byte)) :
    hs.length ≤ (serializeHeaderLines hs).length := by
  induction hs with
  | nil => simp [serializeHeaderLines]
  | cons nv t ih =>
    obtain ⟨n, v⟩ := nv
    simp only [serializeHeaderLines, List.length_cons, List.length_append]
    omega

/-- Parsing a serialized header section recovers the header list. -/
theorem parseHeaderList_ser : ∀ (hs : List (List Byte × List Byte)) (fuel : Nat),
    hs.all validPairB = true → hs.length < fuel →
    parseHeaderList fuel (serializeHeaderLines hs) = some hs := by
  intro hs
  induction hs with
  | nil =>
    intro fuel _ hf
    match fuel with
    | f + 1 => simp [parseHeaderList, serializeHeaderLines, splitCRLF]
  | cons nv t ih =>
    obtain ⟨n, v⟩ := nv
    intro fuel hv hf
    simp only [List.all_cons, Bool.and_eq_true] at hv
    obtain ⟨hvp, hvt⟩ := hv
    simp only [validPairB, validNameB, validValueB, Bool.and_eq_true] at hvp
    match fuel with
    | fu + 1 =>
    have hline13 : (n ++ 58 :: 32 :: v).all (fun b => b != 13) = true := by
      rw [List.all_eq_true]
      intro x hx
      simp only [List.mem_append, List.mem_cons] at hx
      rcases hx with hx | hx | hx | hx
      · have := token_byte_ne x ((List.all_eq_true.mp hvp.1.2) x hx)
        simp only [bne_iff_ne, ne_eq]
        exact this.1
      · subst hx; decide
      · subst hx; decide
      · have := (List.all_eq_true.mp (crlfFree_ne13 v hvp.2.1.1)) x hx
        exact this
    have hassoc : serializeHeaderLines ((n, v) :: t) =
        (n ++ 58 :: 32 :: v) ++ 13 :: 10 :: serializeHeaderLines t := by
      simp [serializeHeaderLines, List.append_assoc]
    rw [hassoc]
    simp only [parseHeaderList]
    rw [splitCRLF_append (n ++ 58 :: 32 :: v) (serializeHeaderLines t) hline13]
    simp only
    rw [if_neg (by simp)]
    rw [parseHeaderLine_ser n v (token_all_ne58 n hvp.1.2)]
    simp only
    rw [ih fu hvt (by simp only [List.length_cons] at hf; omega)]
    rfl

/-- A successfully parsed header section reconstructs its input. -/
theorem parseHeaderList_recon : ∀ (fuel : Nat) (bytes : List Byte)
    (hs : List (List Byte × List Byte)),
    parseHeaderList fuel bytes = some hs → bytes = serializeHeaderLines hs := by
  intro fuel
  induction fuel with
  | zero => intro bytes hs h; simp [parseHeaderList] at h
  | succ fu ih =>
    intro bytes hs h
    simp only [parseHeaderList] at h
    cases hsp : splitCRLF bytes with
    | none => rw [hsp] at h; simp at h
    | some p =>
      obtain ⟨line, rest⟩ := p
      rw [hsp] at h
      simp only at h
      by_cases hl : line = []
      · rw [if_pos hl] at h
        by_cases hr : rest = []
        · rw [if_pos hr] at h
          simp only [Option.some.injEq] at h
          subst h
          have := splitCRLF_recon bytes line rest hsp
          rw [this, hl, hr]
          rfl
        · rw [if_neg hr] at h
          simp at h
      · rw [if_neg hl] at h
        cases hpl : parseHeaderLine line with
        | none => rw [hpl] at h; simp at h
        | some nv =>
          rw [hpl] at h
          obtain ⟨n, v⟩ := nv
          cases hrec : parseHeaderList fu rest with
          | none => rw [hrec] at h; simp at h
          | some t =>
            rw [hrec] at h
            simp only [Option.map_some', Option.some.injEq] at h
            subst h
            have hb := splitCRLF_recon bytes line rest hsp
            have hline := parseHeaderLine_recon line n v hpl
            have hrest := ih rest t hrec
            rw [hb, hline, hrest]
            simp [serializeHeaderLines, List.append_assoc]

/-- Visible-ASCII bytes are CR-free, LF-free and space-free. -/
theorem visible_ne (u : List Byte) (h : u.all (fun b => 33 ≤ b && b ≤ 126) = true) :
    u.all (fun b => b != 13) = true ∧ u.all (fun b => b != 32) = true := by
  rw [List.all_eq_true] at h
  constructor
  all_goals
    rw [List.all_eq_true]
    intro x hx
    have hb := h x hx
    simp only [Bool.and_eq_true, decide_eq_true_eq] at hb
    simp only [bne_iff_ne, ne_eq]
    intro he
    subst he
    exact absurd hb.1 (by decide)

/-- Digit bytes are CR-free and space-free. -/
theorem digits_ne (s : List Byte) (h : s.all digitB = true) :
    s.all (fun b => b != 13) = true ∧ s.all (fun b => b != 32) = true := by
  rw [List.all_eq_true] at h
  constructor
  all_goals
    rw [List.all_eq_true]
    intro x hx
    have hb := h x hx
    simp only [digitB, Bool.and_eq_true, decide_eq_true_eq] at hb
    simp only [bne_iff_ne, ne_eq]
    intro he
    subst he
    exact absurd hb.1 (by decide)

/-- Behaviour of the request parse stage on a serialized head with any
version token: the parse succeeds exactly on HTTP/1.1, rejects a parsed
non-1 version with the unsupported-version error, and rejects an unknown
version token as malformed. -/
theorem requestHeadParse_on_serialized (mh : Nat) (m u vt : List Byte)
    (hs : List (List Byte × List Byte))
    (hm : validMethodB m = true) (hu : validUriB u = true)
    (hhs : hs.all validPairB = true) (hcount : hs.length ≤ mh)
    (hvt : crlfFreeB vt = true) :
    (versionOfToken vt = some 1 →
      requestHeadParse mh (serializeRequest m u vt hs) = .ok ⟨m, u, 1, hs⟩) ∧
    (∀ ver, versionOfToken vt = some ver → ver ≠ 1 →
      requestHeadParse mh (serializeRequest m u vt hs) = .error .unsupportedVersion) ∧
    (versionOfToken vt = none →
      requestHeadParse mh (serializeRequest m u vt hs) = .error .malformed) := by
  have hmtok : m.all isTokenByte = true := by
    simp only [validMethodB, Bool.and_eq_true] at hm
    exact hm.2
  have hm13 : m.all (fun b => b != 13) = true := crlfFree_ne13 m (token_all_crlfFree m hmtok)
  have hm32 : m.all (fun b => b != 32) = true := token_all_ne32 m hmtok
  have huvis : u.all (fun b => 33 ≤ b && b ≤ 126) = true := by
    simp only [validUriB, Bool.and_eq_true] at hu
    exact hu.2
  have hu13 : u.all (fun b => b != 13) = true := (visible_ne u huvis).1
  have hu32 : u.all (fun b => b != 32) = true := (visible_ne u huvis).2
  have hvt13 : vt.all (fun b => b != 13) = true := crlfFree_ne13 vt hvt
  have hline13 : (m ++ 32 :: (u ++ 32 :: vt)).all (fun b => b != 13) = true := by
    simp only [List.all_append, List.all_cons, Bool.and_eq_true]
    exact ⟨hm13, by decide, hu13, by decide, hvt13⟩
  have hser : serializeRequest m u vt hs =
      (m ++ 32 :: (u ++ 32 :: vt)) ++ 13 :: 10 :: serializeHeaderLines hs := by
    simp [serializeRequest, List.append_assoc]
  have hfuel : hs.length < (serializeHeaderLines hs).length + 1 := by
    have := shl_length_ge hs
    omega
  have hcommon : ∀ ver, versionOfToken vt = some ver →
      requestHeadParse mh (serializeRequest m u vt hs) =
        (if ver ≠ 1 then .error .unsupportedVersion else .ok ⟨m, u, 1, hs⟩) := by
    intro ver hv
    simp only [requestHeadParse, hser, splitCRLF_append _ _ hline13,
      split3_ser m u vt hm32 hu32, hv, parseHeaderList_ser hs _ hhs hfuel]
    rw [if_neg (by
      intro hcon
      exact hcon ⟨hhs, hm, hu⟩)]
    rw [if_neg (by omega)]
  refine ⟨?_, ?_, ?_⟩
  · intro hv
    rw [hcommon 1 hv]
    simp
  · intro ver hv hne
    rw [hcommon ver hv]
    rw [if_pos hne]
  · intro hv
    simp only [requestHeadParse, hser, splitCRLF_append _ _ hline13,
      split3_ser m u vt hm32 hu32, hv]

/-! ## Claim theorems -/

/-- C1: the claim fails on the code.  For the valid 24-byte head H24 and the
admissible chunking chunksC1 (chunks delivered by the transport, each within
the requested window), the poll loop consumes the whole head yet ends in a
running state with completion 2 and never completes, while the same head
with all bytes available decodes to done; the loop body's reset of
completion to 0 on a failed window comparison discards the partial
terminator match instead of re-evaluating it.  This contradicts the claim
that decoding finds the true terminator under every split and agrees with
single-chunk decoding. -/
theorem c1_chunking_misses_terminator :
    admissibleB ⟨[], 0⟩ chunksC1 = true ∧
    chunksC1.flatten = H24 ∧
    runChunks 8192 ⟨[], 0⟩ chunksC1 = .running ⟨H24, 2⟩ ∧
    decodeFull 8192 H24 = .done H24 := by
  refine ⟨by decide, by decide, by decide, by decide⟩

/-- C2: the claim fails on the code.  Feeding a fresh scanner the single
chunk CR LF CR LF (the complete terminator, a chunk of exactly the
requested remaining() = 4 bytes), the stored match state is 2, not the
longest suffix 4 claimed by the spec, because the scan loop lets the later
length-2 suffix match overwrite the full match; done() is therefore false
even though the complete terminator was just processed, contradicting the
method's own documentation. -/
theorem c2_scanner_not_longest_suffix :
    termProcess END 0 END = 2 ∧
    specOverlap END END = 4 ∧
    termDone END (termProcess END 0 END) = false := by
  refine ⟨by decide, by decide, by decide⟩

/-- C9: for the repository's test input (the canonical GET head followed by
one extra space byte), the suspendable decoder consumes exactly the 60 head
bytes and completes, one byte is left unread, and the parse stage yields
method GET, minor version 1 (HTTP/1.1), and the Host and Connection
headers with their test values. -/
theorem c9_concrete_scenario :
    decodeFull 8192 INPUT61 = .done HEAD60 ∧
    INPUT61 = HEAD60 ++ [32] ∧
    HEAD60.length = 60 ∧
    requestHeadParse 128 HEAD60 =
      .ok ⟨asciiBytes ("GET"), asciiBytes ("/"), 1,
           [(asciiBytes ("Host"), asciiBytes ("www.example.com")),
            (asciiBytes ("Connection"), asciiBytes ("close"))]⟩ := by
  refine ⟨by decide, by decide, by decide, by decide⟩

/-- C6 counterexample: after the head-too-long failure (capacity 3 cannot
even hold the first requested window) the decoder state is returned
unchanged, without the usize::MAX sentinel; polling the same state again
returns the same failure instead of tripping the entry assertion, so this
terminal failure is not detected as a contract violation. -/
theorem c6_cex_repoll_after_too_long :
    pollAsync 3 fPend 5 0 ⟨[], 0⟩ = some (.tooLong, ⟨[], 0⟩) ∧
    pollAsync 3 fPend 5 0 ⟨[], 0⟩ ≠ some (.panicked, ⟨[], 0⟩) := by
  refine ⟨by decide, by decide⟩

/-- C7 counterexample: under the admissible chunking chunksC1 extended by
one more CR LF chunk, the decoder completes with a 26-byte buffer although
the full head (including its terminator) is already the 24-byte prefix H24:
at the moment the terminator is matched the buffer holds two bytes beyond
the head. -/
theorem c7_cex_buffer_overshoots_head :
    admissibleB ⟨[], 0⟩ (chunksC1 ++ [[13, 10]]) = true ∧
    runChunks 8192 ⟨[], 0⟩ (chunksC1 ++ [[13, 10]]) = .done (H24 ++ [13, 10]) ∧
    END <:+ H24 ∧
    H24 ++ [13, 10] ≠ H24 := by
  refine ⟨by decide, by decide, by decide, by decide⟩

/-- C8 counterexample: a well-formed HTTP/1.0 request head is rejected with
the unsupported-version error (the code accepts only a parsed version of
Some(1)), contradicting the claim that HTTP/1.0 heads are accepted. -/
theorem c8_cex_http10_rejected :
    requestHeadParse 128 (serializeRequest (asciiBytes ("GET")) (asciiBytes ("/"))
      (asciiBytes ("HTTP/1.0")) []) = .error .unsupportedVersion := by
  decide

/-- C10 counterexample: against a transport that keeps reporting successful
zero-byte reads (end of stream) while the terminator is unmatched, one
invocation of poll never returns: the loop re-reads forever, whatever
bound is put on the number of iterations. -/
theorem c10_cex_empty_reads_loop_forever :
    NeverReturns 8192 fEmpty ⟨[], 0⟩ := by
  intro fuel
  induction fuel with
  | zero => intro idx; rfl
  | succ n ih =>
    intro idx
    show pollLoop 8192 fEmpty (n + 1) idx ⟨[], 0⟩ = none
    simp only [pollLoop, fEmpty, nextState]
    norm_num
    exact ih (idx + 1)

/-- C3: for every admissible delivery whose bytes contain no terminator
occurrence ending within the first max_head_size bytes, decoding never
produces a head, and as soon as more than max_head_size bytes would be
delivered the decoder fails with the resource-exhaustion error (the
request-head-too-long return), never with a parse attempt: the parse stage
is only ever reached through a completed terminator match. -/
theorem c3_overflow_resource_exhaustion (cap : Nat) (chunks : List (List Byte))
    (hadm : admissibleB ⟨[], 0⟩ chunks = true)
    (hno : ∀ k ∈ List.range (cap + 1), ¬ (END <:+ chunks.flatten.take k)) :
    (∀ buf, runChunks cap ⟨[], 0⟩ chunks ≠ .done buf) ∧
    (cap < chunks.flatten.length →
      ∃ st2, runChunks cap ⟨[], 0⟩ chunks = .tooLong st2) := by
  have hm := runChunks_spec cap chunks ⟨[], 0⟩ hadm ⟨[], by simp⟩ (by decide) (by simp)
  have hnd : ∀ buf, runChunks cap ⟨[], 0⟩ chunks ≠ .done buf := by
    intro buf hd
    obtain ⟨hsuf, hlen, l, hbuf, hpre⟩ := hm.2 buf hd
    simp only [List.nil_append] at hbuf
    subst hbuf
    have hbt : buf = chunks.flatten.take buf.length := List.prefix_iff_eq_take.mp hpre
    have hk : buf.length ∈ List.range (cap + 1) := List.mem_range.mpr (by omega)
    exact hno buf.length hk (hbt ▸ hsuf)
  refine ⟨hnd, fun hlong => ?_⟩
  cases hr : runChunks cap ⟨[], 0⟩ chunks with
  | running st2 =>
    obtain ⟨hbuf, hle⟩ := hm.1 st2 hr
    simp only [List.nil_append] at hbuf
    rw [hbuf] at hle
    omega
  | tooLong st2 => exact ⟨st2, rfl⟩
  | done buf => exact absurd hr (hnd buf)

/-- C3 witness: a 6-byte terminator-free delivery against capacity 5 is
rejected as too long and never yields a head. -/
theorem c3_overflow_resource_exhaustion_witness :
    (∀ buf, runChunks 5 ⟨[], 0⟩ [[65, 65, 65, 65], [66, 66]] ≠ .done buf) ∧
    (∃ st2, runChunks 5 ⟨[], 0⟩ [[65, 65, 65, 65], [66, 66]] = .tooLong st2) := by
  have h := c3_overflow_resource_exhaustion 5 [[65, 65, 65, 65], [66, 66]]
    (by decide) (by decide)
  exact ⟨h.1, h.2 (by decide)⟩

/-- C7 as amended: under every admissible delivery the buffer length never
exceeds the capacity, at every intermediate point of the run as well as at
completion, and a completed buffer always ends with the terminator; but
(see the counterexample) the completed buffer need not be exactly the head:
it can extend beyond the first terminator occurrence. -/
theorem c7_amended_capacity_invariant (cap : Nat) (chunks : List (List Byte))
    (hadm : admissibleB ⟨[], 0⟩ chunks = true) :
    (∀ pre suf st2, chunks = pre ++ suf →
        runChunks cap ⟨[], 0⟩ pre = .running st2 → st2.buffer.length ≤ cap) ∧
    (∀ buf, runChunks cap ⟨[], 0⟩ chunks = .done buf →
        buf.length ≤ cap ∧ END <:+ buf) := by
  constructor
  · intro pre suf st2 hsplit hr
    have hadmp : admissibleB ⟨[], 0⟩ pre = true :=
      admissibleB_of_append ⟨[], 0⟩ pre suf (hsplit ▸ hadm)
    have hm := runChunks_spec cap pre ⟨[], 0⟩ hadmp ⟨[], by simp⟩ (by decide) (by simp)
    exact (hm.1 st2 hr).2
  · intro buf hd
    have hm := runChunks_spec cap chunks ⟨[], 0⟩ hadm ⟨[], by simp⟩ (by decide) (by simp)
    obtain ⟨hsuf, hlen, -⟩ := hm.2 buf hd
    exact ⟨hlen, hsuf⟩

/-- C7 witness: a single-chunk delivery of the bare terminator stays within
the default capacity and completes with the terminator as suffix. -/
theorem c7_amended_capacity_invariant_witness :
    runChunks 8192 ⟨[], 0⟩ [[13, 10, 13, 10]] = .done END ∧
    END.length ≤ 8192 ∧ END <:+ END := by
  have h := c7_amended_capacity_invariant 8192 [[13, 10, 13, 10]] (by decide)
  refine ⟨by decide, ?_, ?_⟩
  · exact (h.2 END (by decide)).1
  · exact (h.2 END (by decide)).2

/-- C6 as amended: re-polling after a successful completion or after a
transport-error failure is detected by the entry assertion, because those
paths store the usize::MAX sentinel in the completion counter and any poll
of a sentinel state panics; the head-too-long failure, however, does not
set the sentinel (see the counterexample), so only those two terminal
states are protected. -/
theorem c6_amended_sentinel_detection :
    (∀ cap f fuel idx (st : DecodeState), st.completion = USIZE_MAX →
        pollAsync cap f fuel idx st = some (.panicked, st)) ∧
    (∀ cap f fuel idx (st : DecodeState) buf st2,
        pollLoop cap f fuel idx st = some (.headReady buf, st2) →
        ∀ cap2 f2 fuel2 idx2, pollAsync cap2 f2 fuel2 idx2 st2 = some (.panicked, st2)) ∧
    (∀ cap f fuel idx (st : DecodeState) st2,
        pollLoop cap f fuel idx st = some (.ioErr, st2) →
        ∀ cap2 f2 fuel2 idx2, pollAsync cap2 f2 fuel2 idx2 st2 = some (.panicked, st2)) := by
  have hp : ∀ cap f fuel idx (st : DecodeState), st.completion = USIZE_MAX →
      pollAsync cap f fuel idx st = some (.panicked, st) := by
    intro cap f fuel idx st h
    simp [pollAsync, h]
  refine ⟨hp, ?_, ?_⟩
  · intro cap f fuel idx st buf st2 h cap2 f2 fuel2 idx2
    exact hp cap2 f2 fuel2 idx2 st2 (pollLoop_headReady_sentinel cap f fuel idx st buf st2 h)
  · intro cap f fuel idx st st2 h cap2 f2 fuel2 idx2
    exact hp cap2 f2 fuel2 idx2 st2 (pollLoop_ioErr_sentinel cap f fuel idx st st2 h)

/-- C6 witness: a concrete successful decode of the bare terminator ends in
the sentinel state, and re-polling that state panics. -/
theorem c6_amended_sentinel_detection_witness :
    pollAsync 8192 (fun _ => ReadResp.data [13, 10, 13, 10]) 3 0 ⟨[], 0⟩ =
      some (.headReady END, ⟨END, USIZE_MAX⟩) ∧
    pollAsync 8192 fPend 3 0 ⟨END, USIZE_MAX⟩ = some (.panicked, ⟨END, USIZE_MAX⟩) := by
  constructor
  · decide
  · exact c6_amended_sentinel_detection.1 8192 fPend 3 0 ⟨END, USIZE_MAX⟩ rfl

/-- C10 as amended: a poll invocation does terminate for every transport
behavior in which each successful read delivers at least one byte (or the
transport reports not-ready or an error): within max_head_size + 2 loop
iterations the decoder returns; only a successful zero-byte read while the
terminator is unmatched (see the counterexample) makes the loop spin
forever. -/
theorem c10_amended_terminates_on_progress (cap : Nat) (f : Nat → ReadResp)
    (hf : ∀ i, f i = .pending ∨ f i = .ioErr ∨ ∃ ch, f i = .data ch ∧ ch ≠ [])
    (st : DecodeState) (idx : Nat) (hc3 : st.completion ≤ 3) :
    (pollLoop cap f ((cap + 1) + 1) idx st).isSome = true :=
  pollLoop_progress cap f hf (cap + 1) st idx hc3 (by omega)

/-- C10 witness: a never-ready transport makes poll return at once. -/
theorem c10_amended_terminates_on_progress_witness :
    (pollLoop 8192 fPend ((8192 + 1) + 1) 0 ⟨[], 0⟩).isSome = true :=
  c10_amended_terminates_on_progress 8192 fPend (fun _ => Or.inl rfl) ⟨[], 0⟩ 0 (by decide)

/-- C4: a decoded head preserves the original wire header fields exactly:
for every valid wire head, the parse stage returns the header list with the
byte-exact names (original casing included), in the original wire order,
each duplicate occurrence stored as its own entry.  The splitting primitive
is modelled from the spec. -/
theorem c4_headers_preserved (mh : Nat) (m u : List Byte)
    (hs : List (List Byte × List Byte)) (h : validReqB mh m u hs = true) :
    requestHeadParse mh (serializeRequest m u (asciiBytes ("HTTP/1.1")) hs) =
      .ok ⟨m, u, 1, hs⟩ := by
  simp only [validReqB, Bool.and_eq_true, decide_eq_true_eq] at h
  obtain ⟨⟨⟨hm, hu⟩, hhs⟩, hcount⟩ := h
  exact (requestHeadParse_on_serialized mh m u _ hs hm hu hhs hcount (by decide)).1
    (by decide)

/-- C4 witness: a head with a mixed-case name and a duplicated name decodes
to exactly the wire list: casing kept, order kept, duplicates separate. -/
theorem c4_headers_preserved_witness :
    validReqB 128 (asciiBytes ("GET")) (asciiBytes ("/"))
      [(asciiBytes ("Host"), asciiBytes ("www.example.com")),
       (asciiBytes ("X-Dup"), asciiBytes ("one")),
       (asciiBytes ("X-Dup"), asciiBytes ("two"))] = true ∧
    requestHeadParse 128 (serializeRequest (asciiBytes ("GET")) (asciiBytes ("/"))
      (asciiBytes ("HTTP/1.1"))
      [(asciiBytes ("Host"), asciiBytes ("www.example.com")),
       (asciiBytes ("X-Dup"), asciiBytes ("one")),
       (asciiBytes ("X-Dup"), asciiBytes ("two"))]) =
      .ok ⟨asciiBytes ("GET"), asciiBytes ("/"), 1,
           [(asciiBytes ("Host"), asciiBytes ("www.example.com")),
            (asciiBytes ("X-Dup"), asciiBytes ("one")),
            (asciiBytes ("X-Dup"), asciiBytes ("two"))]⟩ :=
  ⟨by decide, c4_headers_preserved 128 (asciiBytes ("GET")) (asciiBytes ("/")) _ (by decide)⟩

/-- C8 as amended: the unsupported-version error is returned exactly for
heads whose version token is HTTP/1.0 (it parses to version 0, which the
code then rejects); an unknown version token fails earlier as malformed,
so only HTTP/1.1 heads are accepted — HTTP/1.0 is not. -/
theorem c8_amended_version_gate (mh : Nat) (m u vt : List Byte)
    (hs : List (List Byte × List Byte))
    (h : validReqB mh m u hs = true) (hvt : crlfFreeB vt = true) :
    requestHeadParse mh (serializeRequest m u vt hs) = .error .unsupportedVersion ↔
      vt = asciiBytes ("HTTP/1.0") := by
  simp only [validReqB, Bool.and_eq_true, decide_eq_true_eq] at h
  obtain ⟨⟨⟨hm, hu⟩, hhs⟩, hcount⟩ := h
  have hh := requestHeadParse_on_serialized mh m u vt hs hm hu hhs hcount hvt
  constructor
  · intro hres
    by_cases h11 : vt = asciiBytes ("HTTP/1.1")
    · exfalso
      have hv : versionOfToken vt = some 1 := by rw [h11]; decide
      rw [hh.1 hv] at hres
      cases hres
    · by_cases h10 : vt = asciiBytes ("HTTP/1.0")
      · exact h10
      · exfalso
        have hv : versionOfToken vt = none := by simp [versionOfToken, h11, h10]
        rw [hh.2.2 hv] at hres
        cases hres
  · intro h10
    have hv : versionOfToken vt = some 0 := by rw [h10]; decide
    exact hh.2.1 0 hv (by decide)

/-- C8 witness: the gate applied at a concrete HTTP/1.0 head. -/
theorem c8_amended_version_gate_witness :
    requestHeadParse 128 (serializeRequest (asciiBytes ("GET")) (asciiBytes ("/"))
      (asciiBytes ("HTTP/1.0"))
      [(asciiBytes ("Host"), asciiBytes ("a"))]) = .error .unsupportedVersion :=
  (c8_amended_version_gate 128 (asciiBytes ("GET")) (asciiBytes ("/"))
    (asciiBytes ("HTTP/1.0")) [(asciiBytes ("Host"), asciiBytes ("a"))]
    (by decide) (by decide)).mpr rfl

/-- C5 counterexample: the claim quantifies over every valid head, but a
well-formed HTTP/1.0 request head does not round-trip: decoding its
serialization yields the unsupported-version error, not the head back. -/
theorem c5_cex_http10_request_breaks_round_trip :
    validReqB 128 (asciiBytes ("GET")) (asciiBytes ("/index"))
      [(asciiBytes ("X-Id"), asciiBytes ("7"))] = true ∧
    requestHeadParse 128 (serializeRequest (asciiBytes ("GET")) (asciiBytes ("/index"))
      (asciiBytes ("HTTP/1.0")) [(asciiBytes ("X-Id"), asciiBytes ("7"))]) =
      .error .unsupportedVersion := by
  refine ⟨by decide, by decide⟩

/-- C5 as amended: round-trip fidelity holds for heads declared HTTP/1.1
(HTTP/1.0 heads are rejected by the decoder, see the counterexample), on
both sides of the codec and in both directions.  For request heads, the
parse stage of src/head/decode.rs inverts serialization (method, URI,
version, header casing, order and duplicates preserved), and every buffer
it accepts re-encodes byte-identically; for response heads the same two
directions hold against the spec-modelled response codec (its
implementation files are not under src/). -/
theorem c5_amended_round_trip :
    (∀ mh m u hs, validReqB mh m u hs = true →
      requestHeadParse mh (serializeRequest m u (asciiBytes ("HTTP/1.1")) hs) =
        .ok ⟨m, u, 1, hs⟩) ∧
    (∀ mh bytes h, requestHeadParse mh bytes = .ok h →
      serializeRequest h.method h.uri (asciiBytes ("HTTP/1.1")) h.headers = bytes) ∧
    (∀ mh h, validRespB mh h = true →
      responseHeadDecode mh (ResponseHead.serialize h) = some h) ∧
    (∀ mh bytes h, responseHeadDecode mh bytes = some h →
      ResponseHead.serialize h = bytes) := by
  refine ⟨?_, ?_, ?_, ?_⟩
  · intro mh m u hs h
    simp only [validReqB, Bool.and_eq_true, decide_eq_true_eq] at h
    obtain ⟨⟨⟨hm, hu⟩, hhs⟩, hcount⟩ := h
    exact (requestHeadParse_on_serialized mh m u _ hs hm hu hhs hcount (by decide)).1
      (by decide)
  · intro mh bytes h hok
    simp only [requestHeadParse] at hok
    cases hsp : splitCRLF bytes with
    | none => rw [hsp] at hok; cases hok
    | some p =>
      obtain ⟨line1, rest⟩ := p
      rw [hsp] at hok
      simp only at hok
      cases hs3 : split3 line1 with
      | none => rw [hs3] at hok; cases hok
      | some q =>
        obtain ⟨m, u, vt⟩ := q
        rw [hs3] at hok
        simp only at hok
        cases hv : versionOfToken vt with
        | none => rw [hv] at hok; cases hok
        | some ver =>
          rw [hv] at hok
          simp only at hok
          cases hph : parseHeaderList (rest.length + 1) rest with
          | none => rw [hph] at hok; cases hok
          | some hs =>
            rw [hph] at hok
            simp only at hok
            split at hok
            · cases hok
            split at hok
            · cases hok
            split at hok
            · cases hok
            rename_i hver1
            have hver : ver = 1 := by omega
            subst hver
            have hvt : vt = asciiBytes ("HTTP/1.1") := by
              by_cases h11 : vt = asciiBytes ("HTTP/1.1")
              · exact h11
              · exfalso
                by_cases h10 : vt = asciiBytes ("HTTP/1.0")
                · rw [versionOfToken, if_neg h11, if_pos h10] at hv
                  simp at hv
                · rw [versionOfToken, if_neg h11, if_neg h10] at hv
                  cases hv
            simp only [Except.ok.injEq] at hok
            subst hok
            show serializeRequest m u (asciiBytes ("HTTP/1.1")) hs = bytes
            have hb := splitCRLF_recon bytes line1 rest hsp
            have hl := split3_recon line1 m u vt hs3
            have hr := parseHeaderList_recon (rest.length + 1) rest hs hph
            rw [hb, hl, hr, ← hvt]
            simp [serializeRequest, List.append_assoc]
  · intro mh h hv
    obtain ⟨ver, stat, rsn, hs⟩ := h
    simp only [validRespB, Bool.and_eq_true, decide_eq_true_eq] at hv
    obtain ⟨⟨⟨⟨hver, hstat⟩, hrsn⟩, hhs⟩, hcount⟩ := hv
    have hver32 : ver.all (fun b => b != 32) = true := by
      rcases (Bool.or_eq_true _ _).mp hver with h1 | h1 <;>
        simp only [decide_eq_true_eq] at h1 <;> rw [h1] <;> decide
    have hver13 : ver.all (fun b => b != 13) = true := by
      rcases (Bool.or_eq_true _ _).mp hver with h1 | h1 <;>
        simp only [decide_eq_true_eq] at h1 <;> rw [h1] <;> decide
    have hsdig : stat.all digitB = true := by
      simp only [statDigitsB, Bool.and_eq_true] at hstat
      exact hstat.2
    have hstat32 : stat.all (fun b => b != 32) = true := (digits_ne stat hsdig).2
    have hstat13 : stat.all (fun b => b != 13) = true := (digits_ne stat hsdig).1
    have hrsn13 : rsn.all (fun b => b != 13) = true := crlfFree_ne13 rsn hrsn
    have hline13 : (ver ++ 32 :: (stat ++ 32 :: rsn)).all (fun b => b != 13) = true := by
      simp only [List.all_append, List.all_cons, Bool.and_eq_true]
      exact ⟨hver13, by decide, hstat13, by decide, hrsn13⟩
    have hser : ResponseHead.serialize ⟨ver, stat, rsn, hs⟩ =
        (ver ++ 32 :: (stat ++ 32 :: rsn)) ++ 13 :: 10 :: serializeHeaderLines hs := by
      simp [ResponseHead.serialize, List.append_assoc]
    have hfuel : hs.length < (serializeHeaderLines hs).length + 1 := by
      have := shl_length_ge hs
      omega
    simp only [hser, responseHeadDecode, splitCRLF_append _ _ hline13,
      split3_ser ver stat rsn hver32 hstat32, parseHeaderList_ser hs _ hhs hfuel]
    rw [if_pos (by
      simp only [Bool.and_eq_true, decide_eq_true_eq]
      exact ⟨⟨⟨⟨hver, hstat⟩, hrsn⟩, hhs⟩, hcount⟩)]
  · intro mh bytes hd hdec
    simp only [responseHeadDecode] at hdec
    cases hsp : splitCRLF bytes with
    | none => rw [hsp] at hdec; cases hdec
    | some p =>
      obtain ⟨line1, rest⟩ := p
      rw [hsp] at hdec
      simp only at hdec
      cases hs3 : split3 line1 with
      | none => rw [hs3] at hdec; cases hdec
      | some q =>
        obtain ⟨ver, stat, rsn⟩ := q
        rw [hs3] at hdec
        simp only at hdec
        cases hph : parseHeaderList (rest.length + 1) rest with
        | none => rw [hph] at hdec; cases hdec
        | some hs =>
          rw [hph] at hdec
          simp only at hdec
          split at hdec
          · simp only [Option.some.injEq] at hdec
            subst hdec
            have hb := splitCRLF_recon bytes line1 rest hsp
            have hl := split3_recon line1 ver stat rsn hs3
            have hr := parseHeaderList_recon (rest.length + 1) rest hs hph
            rw [hb, hl, hr]
            simp [ResponseHead.serialize, List.append_assoc]
          · cases hdec

/-- C5 witness: the amended round trip applied on the request side to a
concrete HTTP/1.1 head and on the response side to the repository's own
response test head (status 201 Created, lowercase connection header). -/
theorem c5_amended_round_trip_witness :
    requestHeadParse 128 (serializeRequest (asciiBytes ("GET")) (asciiBytes ("/"))
      (asciiBytes ("HTTP/1.1")) [(asciiBytes ("Accept"), asciiBytes ("text/html"))]) =
      .ok ⟨asciiBytes ("GET"), asciiBytes ("/"), 1,
           [(asciiBytes ("Accept"), asciiBytes ("text/html"))]⟩ ∧
    validRespB 128 respEx = true ∧
    responseHeadDecode 128 respEx.serialize = some respEx :=
  ⟨c5_amended_round_trip.1 128 (asciiBytes ("GET")) (asciiBytes ("/"))
    [(asciiBytes ("Accept"), asciiBytes ("text/html"))] (by decide),
   by decide,
   c5_amended_round_trip.2.2.1 128 respEx (by decide)⟩

end AsyncHttpCodec
